import Mathlib

/-!
# es_sink: the live event index, the buffer window and the consumable count

A shallow embedding of `lib/es_sink.cc` (gr-eventstream).

Sample times, sample counts and vector indices are natural numbers.  The
source keeps them in 64-bit unsigned words.  A sum of a sample time and a
sample count is taken exactly: the head starts at 0 and grows by the number
of samples consumed, so it stays below 2^64 in every run.  Where the source
lets an unsigned word go below zero or above its top on ordinary inputs (the
differences `live_event_times[0] - min_time`, `max_time - min_time`,
`etime - d_time + d_history - 1`, and the `idx--` of the reverse search) the
reduction modulo 2^64 is written out.
-/

namespace EsSink

/-! ## Configuration -/

/-- Modelled from the spec: `enum es_search_behaviors` is declared in a header
that is not under src/.  The three insertion strategies are the named values;
`unnamed v` stands for any other value of the enum, which the switch of
`find_index` sends to its `default`. -/
inductive es_search_behaviors where
  | SEARCH_FORWARD
  | SEARCH_REVERSE
  | SEARCH_BINARY
  | unnamed (v : Nat)
  deriving DecidableEq, Repr

/-- Modelled from the spec: `enum es_congestion_behaviors` is declared in a
header that is not under src/.  The two congestion policies are the named
values; `unnamed v` stands for any other value of the enum, which the switch
of `work` sends to the `DROP`/`default` arm. -/
inductive es_congestion_behaviors where
  | BLOCK
  | DROP
  | unnamed (v : Nat)
  deriving DecidableEq, Repr

/-! ## Machine words -/

/-- The largest `size_t`. -/
def SIZE_MAX : Nat := 2 ^ 64 - 1

/-- Unsigned 64-bit subtraction `a - b` of two words: the difference modulo 2^64. -/
def sub64 (a b : Nat) : Nat := (a + 2 ^ 64 - b) % 2 ^ 64

/-- The conversion `(int)x` of an unsigned word: the low 32 bits read as a
two's-complement number. -/
def toInt32 (x : Nat) : Int :=
  if x % 2 ^ 32 < 2 ^ 31 then ((x % 2 ^ 32 : Nat) : Int) else ((x % 2 ^ 32 : Nat) : Int) - 2 ^ 32

/-! ## Insertion searches over `live_event_times` -/

/-- The loop of `es_sink::find_forward`:
`for (idx = 0; idx < sz && evt_time > live_event_times[idx]; idx++){}`.
The first argument bounds the number of iterations; `sz` of them are enough,
since `idx` starts at 0 and the loop stops at `idx = sz`. -/
def find_forward_loop (live_event_times : List Nat) (evt_time : Nat) : Nat → Nat → Nat
  | 0, idx => idx
  | fuel + 1, idx =>
    if idx < live_event_times.length ∧ evt_time > live_event_times.getD idx 0 then
      find_forward_loop live_event_times evt_time fuel (idx + 1)
    else idx

/-- The function `es_sink::find_forward`. -/
def find_forward (live_event_times : List Nat) (evt_time : Nat) : Nat :=
  find_forward_loop live_event_times evt_time live_event_times.length 0

/-- The loop and return of `es_sink::find_reverse`:
`for (idx = sz; idx-- > 0 && evt_time < live_event_times[idx];){}  return idx + 1;`.
The argument is `idx` before the test `idx-- > 0`.  At 0 the test fails and
the decrement leaves `SIZE_MAX`, so that `idx + 1` wraps to 0.  Above 0 the
decrement gives an index below `sz`, and `idx + 1` does not wrap. -/
def find_reverse_loop (live_event_times : List Nat) (evt_time : Nat) : Nat → Nat
  | 0 => (SIZE_MAX + 1) % 2 ^ 64
  | idx + 1 =>
    if evt_time < live_event_times.getD idx 0 then
      find_reverse_loop live_event_times evt_time idx
    else idx + 1

/-- The function `es_sink::find_reverse`. -/
def find_reverse (live_event_times : List Nat) (evt_time : Nat) : Nat :=
  if live_event_times.length = 0 then 0
  else find_reverse_loop live_event_times evt_time live_event_times.length

/-- The comparison `sink_compare(vval, cval)`: `cval > vval`. -/
def sink_compare (vval cval : Nat) : Bool := decide (cval > vval)

/-- The bisection of `std::lower_bound(first, last, val, comp)` on the range
that starts at index `first` and holds `len` entries:
`while (len > 0) { half = len >> 1; middle = first + half;
 if (comp(*middle, val)) { first = middle + 1; len = len - half - 1; } else len = half; }
 return first;`.
The first argument bounds the number of iterations; `len` of them are
enough, since `len` drops at every iteration. -/
def lower_bound_loop (v : List Nat) (val : Nat) (comp : Nat → Nat → Bool) :
    Nat → Nat → Nat → Nat
  | 0, first, _ => first
  | fuel + 1, first, len =>
    if len > 0 then
      if comp (v.getD (first + len / 2) 0) val then
        lower_bound_loop v val comp fuel (first + len / 2 + 1) (len - len / 2 - 1)
      else
        lower_bound_loop v val comp fuel first (len / 2)
    else first

/-- The call `std::lower_bound(v.begin(), v.end(), val, comp) - v.begin()`. -/
def lower_bound (v : List Nat) (val : Nat) (comp : Nat → Nat → Bool) : Nat :=
  lower_bound_loop v val comp v.length 0 v.length

/-- The function `es_sink::find_binary`. -/
def find_binary (live_event_times : List Nat) (evt_time : Nat) : Nat :=
  lower_bound live_event_times evt_time sink_compare

/-- The function `es_sink::find_index`.  The result of the search is an
index between 0 and the size of the vector, which the `int` return holds
unchanged for a vector of fewer than 2^31 entries. -/
def find_index (d_search_behavior : es_search_behaviors)
    (live_event_times : List Nat) (evt_time : Nat) : Nat :=
  match d_search_behavior with
  | .SEARCH_BINARY => find_binary live_event_times evt_time
  | .SEARCH_REVERSE => find_reverse live_event_times evt_time
  | .SEARCH_FORWARD => find_forward live_event_times evt_time
  | .unnamed _ => find_forward live_event_times evt_time

/-- The call `v.insert(v.begin() + offset, x)` for `offset` up to the size of `v`. -/
def vector_insert (v : List Nat) (offset : Nat) (x : Nat) : List Nat :=
  v.take offset ++ x :: v.drop offset

/-- The two statements of `work` that enter an event time into the index:
`int live_event_times_insert_offset = find_index(etime);
 live_event_times.insert(live_event_times.begin() + live_event_times_insert_offset, etime);`. -/
def live_insert (d_search_behavior : es_search_behaviors)
    (live_event_times : List Nat) (etime : Nat) : List Nat :=
  vector_insert live_event_times (find_index d_search_behavior live_event_times etime) etime

/-- The inner loop of the completion drain of `work`:
`for (int i = 0; i < live_event_times.size(); i++)
   if (live_event_times[i] == delete_index) { live_event_times.erase(begin() + i); break; }`.
The first argument bounds the number of iterations; the size of the vector
is enough. -/
def erase_loop (live_event_times : List Nat) (delete_index : Nat) : Nat → Nat → List Nat
  | 0, _ => live_event_times
  | fuel + 1, i =>
    if i < live_event_times.length then
      if live_event_times.getD i 0 = delete_index then live_event_times.eraseIdx i
      else erase_loop live_event_times delete_index fuel (i + 1)
    else live_event_times

/-- One iteration of `while (dq.pop(delete_index)) { ... }`: the first entry
equal to `delete_index`, if any, leaves the index. -/
def remove_one (live_event_times : List Nat) (delete_index : Nat) : List Nat :=
  erase_loop live_event_times delete_index live_event_times.length 0

/-- The completion drain of `work`: `completed` are the values that
`dq.pop` yields, in order, until the queue is empty. -/
def drain (live_event_times : List Nat) (completed : List Nat) : List Nat :=
  completed.foldl remove_one live_event_times

/-! ## The buffer window -/

/-- The statement `unsigned long long max_time = d_time + noutput_items;` of `work`. -/
def max_time (d_time noutput_items : Nat) : Nat := d_time + noutput_items

/-- The statement
`unsigned long long min_time = (d_history > d_time)?0:d_time-d_history+1;` of `work`. -/
def min_time (d_time d_history : Nat) : Nat :=
  if d_history > d_time then 0 else d_time - d_history + 1

/-- The value that `d_buffer_window_size = max_time - min_time;` stores. -/
def buffer_window_size (d_time d_history noutput_items : Nat) : Nat :=
  sub64 (max_time d_time noutput_items) (min_time d_time d_history)

/-- The local buffer offset of an event in `work`:
`int buffer_offset = (int)(etime - d_time + d_history - 1);
 if (buffer_offset < 0) { printf(...); buffer_offset = 0; }`. -/
def buffer_offset (etime d_time d_history : Nat) : Int :=
  if toInt32 (sub64 (sub64 etime d_time + d_history) 1) < 0 then 0
  else toInt32 (sub64 (sub64 etime d_time + d_history) 1)

/-! ## The producer state and one cycle of `work` -/

/-- Modelled from the spec: the class declaration of `es_sink` (es_sink.h) is
not under src/.  The fields are the members that `work` and the searches of
es_sink.cc read and write: the head `d_time`, the history depth `d_history`,
the total-created counter `d_nevents` (an integer; the worker threads that
also count it down are outside this sequential model), the stored window
size, the Live Event Index and the two configured behaviours. -/
structure Sink where
  d_time : Nat
  d_history : Nat
  d_nevents : Int
  d_buffer_window_size : Nat
  live_event_times : List Nat
  d_search_behavior : es_search_behaviors
  d_congestion_behavior : es_congestion_behaviors
  deriving DecidableEq, Repr

/-- One event that `event_queue->fetch_next_event(min_time, max_time, &eh)`
yields during a cycle, with what the bounded queue `qq` answers for it:
`etime` is `::event_time(eh->event)`, `length` is `eh->length()`, `push` is
the result of the first `qq.push(eh)` and `retries` are the results of the
later `qq.push(eh)` calls of the BLOCK arm, in order. -/
structure Fetched where
  etime : Nat
  length : Nat
  push : Bool
  retries : List Bool
  deriving DecidableEq, Repr

/-- The retry loop of the BLOCK arm:
`while (!push_succeeded) { sleep_for(1 ms); push_succeeded = qq.push(eh); }`.
The result is `push_succeeded` when the loop exits, and `none` when every
further push fails, in which case the loop does not exit. -/
def block_retry : Bool → List Bool → Option Bool
  | true, _ => some true
  | false, [] => none
  | false, r :: rs => block_retry r rs

/-- The congestion switch of `work` on the counter `d_nevents`, entered after
a failed first push (`if (!push_succeeded) switch (d_congestion_behavior)`):
BLOCK retries and leaves the counter, DROP and `default` run `--d_nevents`. -/
def congestion_switch (d_congestion_behavior : es_congestion_behaviors)
    (retries : List Bool) (d_nevents : Int) : Option Int :=
  match d_congestion_behavior with
  | .BLOCK =>
    match block_retry false retries with
    | some _ => some d_nevents
    | none => none
  | .DROP => some (d_nevents - 1)
  | .unnamed _ => some (d_nevents - 1)

/-- The body of `while (event_queue->fetch_next_event(min_time, max_time, &eh))`
for one fetched event: `d_nevents++`, the push with its congestion switch,
then the insertion of `etime` into `live_event_times`, which follows the
`if (!push_succeeded) { ... }` block and is run on every path through it.
The payload slices and the tag merge change none of the fields of `Sink`. -/
def handle_event (s : Sink) (e : Fetched) : Option Sink :=
  let counted := s.d_nevents + 1
  let after_push := if e.push then some counted
    else congestion_switch s.d_congestion_behavior e.retries counted
  match after_push with
  | none => none
  | some n =>
    some { s with
      d_nevents := n
      live_event_times := live_insert s.d_search_behavior s.live_event_times e.etime }

/-- The fetch loop of `work` over the events the store yields in this cycle. -/
def fetch_loop : List Fetched → Sink → Option Sink
  | [], s => some s
  | e :: es, s =>
    match handle_event s e with
    | none => none
    | some s1 => fetch_loop es s1

/-- The consumable count of `work`:
`int nconsume = (int)std::min((uint64_t)noutput_items,
   std::min(live_event_times.size()==0 ? noutput_items
                                       : (uint64_t)(live_event_times[0] - min_time),
            event_queue->empty() ? noutput_items
                                 : (uint64_t)(event_queue->min_time() - min_time)));`.
The arguments `store_empty` and `store_min_time` are what `event_queue->empty()`
and `event_queue->min_time()` answer after the fetch loop. -/
def nconsume (noutput_items min_t : Nat) (live_event_times : List Nat)
    (store_empty : Bool) (store_min_time : Nat) : Int :=
  toInt32 (min noutput_items
    (min (match live_event_times with
          | [] => noutput_items
          | t0 :: _ => sub64 t0 min_t)
         (if store_empty then noutput_items else sub64 store_min_time min_t)))

/-- What one call of `work` receives from outside the producer: the number
of new samples `noutput_items` (the scheduler passes a count, never a
negative number), the timestamps that `dq.pop` yields, the events that the
store yields, and the answers of `event_queue->empty()` and
`event_queue->min_time()` after the fetch loop. -/
structure Cycle where
  noutput_items : Nat
  completed : List Nat
  fetched : List Fetched
  store_empty : Bool
  store_min_time : Nat
  deriving DecidableEq, Repr

/-- One cycle of `es_sink::work`, for a cycle without a `file_end` tag (the
drain barrier `wait_events` waits on the worker threads): the window, the
completion drain, the fetch loop, the consumable count, `d_time += nconsume`
and `return nconsume`.  The result is `none` when a retry loop of the BLOCK
arm does not exit. -/
def work (s : Sink) (c : Cycle) : Option (Sink × Int) :=
  let max_t := max_time s.d_time c.noutput_items
  let min_t := min_time s.d_time s.d_history
  let drained : Sink := { s with
    d_buffer_window_size := sub64 max_t min_t
    live_event_times := drain s.live_event_times c.completed }
  match fetch_loop c.fetched drained with
  | none => none
  | some s2 =>
    let n := nconsume c.noutput_items min_t s2.live_event_times c.store_empty c.store_min_time
    some ({ s2 with d_time := s2.d_time + n.toNat }, n)

/-- The condition under which every retry loop of a cycle exits: under BLOCK,
each fetched event whose first push fails sees a later push succeed. -/
def retries_end (d_congestion_behavior : es_congestion_behaviors)
    (fetched : List Fetched) : Prop :=
  d_congestion_behavior = .BLOCK → ∀ e ∈ fetched, e.push = true ∨ true ∈ e.retries

instance (cb : es_congestion_behaviors) (fetched : List Fetched) :
    Decidable (retries_end cb fetched) := by
  unfold retries_end; infer_instance


/-! ## Lemmas on sorted lists -/

theorem getD_le_of_sorted {l : List Nat} (h : l.Sorted (· ≤ ·)) {i j : Nat}
    (hij : i ≤ j) (hj : j < l.length) : l.getD i 0 ≤ l.getD j 0 := by
  rcases Nat.eq_or_lt_of_le hij with rfl | hlt
  · exact le_rfl
  · have hi : i < l.length := lt_trans hlt hj
    rw [List.getD_eq_getElem l 0 hi, List.getD_eq_getElem l 0 hj]
    exact (List.pairwise_iff_getElem.mp h) i j hi hj hlt

theorem mem_take_getD {l : List Nat} {k x : Nat} (hx : x ∈ l.take k) :
    ∃ j, j < k ∧ j < l.length ∧ x = l.getD j 0 := by
  obtain ⟨n, hn, rfl⟩ := List.getElem_of_mem hx
  have hn2 : n < k ∧ n < l.length := by
    simpa [List.length_take] using hn
  refine ⟨n, hn2.1, hn2.2, ?_⟩
  rw [List.getD_eq_getElem l 0 hn2.2]
  simp

theorem mem_drop_getD {l : List Nat} {k x : Nat} (hx : x ∈ l.drop k) :
    ∃ j, k ≤ j ∧ j < l.length ∧ x = l.getD j 0 := by
  obtain ⟨n, hn, rfl⟩ := List.getElem_of_mem hx
  have hn2 : k + n < l.length := by
    have := hn
    simp [List.length_drop] at this
    omega
  refine ⟨k + n, Nat.le_add_right k n, hn2, ?_⟩
  rw [List.getD_eq_getElem l 0 hn2]
  simp

theorem sorted_vector_insert {l : List Nat} (h : l.Sorted (· ≤ ·)) {k t : Nat}
    (hlo : ∀ j, j < k → j < l.length → l.getD j 0 ≤ t)
    (hhi : ∀ j, k ≤ j → j < l.length → t ≤ l.getD j 0) :
    (vector_insert l k t).Sorted (· ≤ ·) := by
  unfold vector_insert
  have htake : (l.take k).Sorted (· ≤ ·) := List.Pairwise.sublist (List.take_sublist k l) h
  have hdrop : (l.drop k).Sorted (· ≤ ·) := List.Pairwise.sublist (List.drop_sublist k l) h
  refine List.pairwise_append.mpr ⟨htake, ?_, ?_⟩
  · refine List.pairwise_cons.mpr ⟨?_, hdrop⟩
    intro y hy
    obtain ⟨j, hkj, hj, rfl⟩ := mem_drop_getD hy
    exact hhi j hkj hj
  · intro x hx y hy
    obtain ⟨i, hik, hi, rfl⟩ := mem_take_getD hx
    rcases List.mem_cons.mp hy with rfl | hy
    · exact hlo i hik hi
    · obtain ⟨j, hkj, hj, rfl⟩ := mem_drop_getD hy
      exact getD_le_of_sorted h (by omega) hj

/-! ## The forward search -/

theorem find_forward_loop_spec (l : List Nat) (t : Nat) :
    ∀ fuel idx, l.length ≤ idx + fuel → idx ≤ l.length →
      (∀ j, j < idx → l.getD j 0 < t) →
      idx ≤ find_forward_loop l t fuel idx ∧
      find_forward_loop l t fuel idx ≤ l.length ∧
      (∀ j, j < find_forward_loop l t fuel idx → l.getD j 0 < t) ∧
      (find_forward_loop l t fuel idx < l.length →
        t ≤ l.getD (find_forward_loop l t fuel idx) 0) := by
  intro fuel
  induction fuel with
  | zero =>
    intro idx hfuel hidx hlow
    have : idx = l.length := by omega
    simp only [find_forward_loop]
    exact ⟨le_rfl, hidx, hlow, fun hlt => by omega⟩
  | succ fuel ih =>
    intro idx hfuel hidx hlow
    simp only [find_forward_loop]
    split_ifs with hc
    · obtain ⟨h1, h2, h3, h4⟩ := ih (idx + 1) (by omega) (by omega) (by
        intro j hj
        rcases Nat.lt_succ_iff_lt_or_eq.mp hj with hj | rfl
        · exact hlow j hj
        · exact hc.2)
      exact ⟨by omega, h2, h3, h4⟩
    · refine ⟨le_rfl, hidx, hlow, fun hlt => ?_⟩
      by_contra hcon
      exact hc ⟨hlt, by omega⟩

theorem find_forward_spec (l : List Nat) (t : Nat) :
    find_forward l t ≤ l.length ∧
    (∀ j, j < find_forward l t → l.getD j 0 < t) ∧
    (find_forward l t < l.length → t ≤ l.getD (find_forward l t) 0) := by
  have h := find_forward_loop_spec l t l.length 0 (by omega) (by omega)
    (fun j hj => absurd hj (Nat.not_lt_zero j))
  exact ⟨h.2.1, h.2.2.1, h.2.2.2⟩


theorem insertion_index_unique {l : List Nat} {t k1 k2 : Nat}
    (hk2 : k2 ≤ l.length)
    (h1 : k1 < l.length → t ≤ l.getD k1 0)
    (h2 : ∀ j, j < k2 → l.getD j 0 < t) : k2 ≤ k1 := by
  by_contra hlt
  have hk : k1 < k2 := by omega
  have := h1 (by omega)
  have := h2 k1 hk
  omega

/-! ## The reverse search -/

theorem find_reverse_loop_spec (l : List Nat) (t : Nat) :
    ∀ n, find_reverse_loop l t n ≤ n ∧
      (∀ j, find_reverse_loop l t n ≤ j → j < n → t < l.getD j 0) ∧
      (0 < find_reverse_loop l t n → l.getD (find_reverse_loop l t n - 1) 0 ≤ t) := by
  intro n
  induction n with
  | zero =>
    have h0 : find_reverse_loop l t 0 = 0 := by
      simp [find_reverse_loop, SIZE_MAX]
    rw [h0]
    exact ⟨le_rfl, fun j _ hj => absurd hj (Nat.not_lt_zero j), fun h => absurd h (lt_irrefl 0)⟩
  | succ idx ih =>
    simp only [find_reverse_loop]
    split_ifs with hc
    · obtain ⟨h1, h2, h3⟩ := ih
      refine ⟨by omega, ?_, h3⟩
      intro j hj hjn
      rcases Nat.lt_succ_iff_lt_or_eq.mp hjn with hj2 | rfl
      · exact h2 j hj hj2
      · exact hc
    · refine ⟨le_rfl, fun j h1 h2 => by omega, fun _ => ?_⟩
      simp only [Nat.add_sub_cancel]
      omega

theorem find_reverse_spec (l : List Nat) (t : Nat) :
    find_reverse l t ≤ l.length ∧
    (∀ j, find_reverse l t ≤ j → j < l.length → t < l.getD j 0) ∧
    (0 < find_reverse l t → l.getD (find_reverse l t - 1) 0 ≤ t) := by
  unfold find_reverse
  split_ifs with h0
  · exact ⟨Nat.zero_le _, fun j _ hj => by omega, fun h => absurd h (lt_irrefl 0)⟩
  · exact find_reverse_loop_spec l t l.length

/-! ## The bisection -/

theorem lower_bound_loop_spec {l : List Nat} (hs : l.Sorted (· ≤ ·)) (t : Nat) :
    ∀ fuel first len, len ≤ fuel → first + len ≤ l.length →
      (∀ j, j < first → l.getD j 0 < t) →
      (∀ j, first + len ≤ j → j < l.length → t ≤ l.getD j 0) →
      lower_bound_loop l t sink_compare fuel first len ≤ l.length ∧
      (∀ j, j < lower_bound_loop l t sink_compare fuel first len → l.getD j 0 < t) ∧
      (∀ j, lower_bound_loop l t sink_compare fuel first len ≤ j → j < l.length →
        t ≤ l.getD j 0) := by
  intro fuel
  induction fuel with
  | zero =>
    intro first len hfuel hlen hlow hhigh
    have hl0 : len = 0 := by omega
    subst hl0
    simp only [lower_bound_loop]
    exact ⟨by omega, hlow, fun j hj hjl => hhigh j (by omega) hjl⟩
  | succ fuel ih =>
    intro first len hfuel hlen hlow hhigh
    simp only [lower_bound_loop]
    split_ifs with hpos hc
    · have hmid : first + len / 2 < l.length := by omega
      have hlt : l.getD (first + len / 2) 0 < t := by
        simpa [sink_compare] using hc
      refine ih (first + len / 2 + 1) (len - len / 2 - 1) (by omega) (by omega) ?_ ?_
      · intro j hj
        exact lt_of_le_of_lt (getD_le_of_sorted hs (by omega) hmid) hlt
      · intro j hj hjl
        exact hhigh j (by omega) hjl
    · have hmid : first + len / 2 < l.length := by omega
      have hge : t ≤ l.getD (first + len / 2) 0 := by
        have : ¬ (t > l.getD (first + len / 2) 0) := by
          simpa [sink_compare] using hc
        omega
      refine ih first (len / 2) (by omega) (by omega) hlow ?_
      intro j hj hjl
      exact le_trans hge (getD_le_of_sorted hs hj hjl)
    · have hl0 : len = 0 := by omega
      subst hl0
      exact ⟨by omega, hlow, fun j hj hjl => hhigh j (by omega) hjl⟩

theorem find_binary_spec {l : List Nat} (hs : l.Sorted (· ≤ ·)) (t : Nat) :
    find_binary l t ≤ l.length ∧
    (∀ j, j < find_binary l t → l.getD j 0 < t) ∧
    (∀ j, find_binary l t ≤ j → j < l.length → t ≤ l.getD j 0) := by
  unfold find_binary lower_bound
  exact lower_bound_loop_spec hs t l.length 0 l.length le_rfl (by omega)
    (fun j hj => absurd hj (Nat.not_lt_zero j)) (fun j hj hjl => by omega)

theorem find_binary_eq_find_forward {l : List Nat} (hs : l.Sorted (· ≤ ·)) (t : Nat) :
    find_binary l t = find_forward l t := by
  obtain ⟨b1, b2, b3⟩ := find_binary_spec hs t
  obtain ⟨f1, f2, f3⟩ := find_forward_spec l t
  apply le_antisymm
  · exact insertion_index_unique b1 f3 b2
  · exact insertion_index_unique f1 (fun h => b3 _ le_rfl h) f2

/-! ## Insertion keeps the index sorted -/

theorem sorted_insert_forward {l : List Nat} (hs : l.Sorted (· ≤ ·)) (t : Nat) :
    (vector_insert l (find_forward l t) t).Sorted (· ≤ ·) := by
  obtain ⟨f1, f2, f3⟩ := find_forward_spec l t
  refine sorted_vector_insert hs (fun j hj _ => le_of_lt (f2 j hj)) ?_
  intro j hj hjl
  exact le_trans (f3 (by omega)) (getD_le_of_sorted hs hj hjl)

theorem sorted_insert_reverse {l : List Nat} (hs : l.Sorted (· ≤ ·)) (t : Nat) :
    (vector_insert l (find_reverse l t) t).Sorted (· ≤ ·) := by
  obtain ⟨r1, r2, r3⟩ := find_reverse_spec l t
  refine sorted_vector_insert hs ?_ (fun j hj hjl => le_of_lt (r2 j hj hjl))
  intro j hj hjl
  exact le_trans (getD_le_of_sorted hs (by omega) (by omega)) (r3 (by omega))

theorem sorted_live_insert (sb : es_search_behaviors) {l : List Nat}
    (hs : l.Sorted (· ≤ ·)) (t : Nat) : (live_insert sb l t).Sorted (· ≤ ·) := by
  cases sb with
  | SEARCH_FORWARD => exact sorted_insert_forward hs t
  | SEARCH_REVERSE => exact sorted_insert_reverse hs t
  | SEARCH_BINARY =>
    show (vector_insert l (find_binary l t) t).Sorted (· ≤ ·)
    rw [find_binary_eq_find_forward hs t]
    exact sorted_insert_forward hs t
  | unnamed v => exact sorted_insert_forward hs t

theorem find_index_le_length (sb : es_search_behaviors) {l : List Nat}
    (hs : l.Sorted (· ≤ ·)) (t : Nat) : find_index sb l t ≤ l.length := by
  cases sb with
  | SEARCH_FORWARD => exact (find_forward_spec l t).1
  | SEARCH_REVERSE => exact (find_reverse_spec l t).1
  | SEARCH_BINARY => exact (find_binary_spec hs t).1
  | unnamed v => exact (find_forward_spec l t).1

/-! ## The completion drain -/

theorem erase_loop_eq (l : List Nat) (d : Nat) :
    ∀ fuel i, l.length ≤ i + fuel → (∀ j, j < i → l.getD j 0 ≠ d) →
      erase_loop l d fuel i = l.erase d := by
  intro fuel
  induction fuel with
  | zero =>
    intro i hfuel hno
    simp only [erase_loop]
    refine (List.erase_of_not_mem ?_).symm
    intro hmem
    obtain ⟨n, hn, hnd⟩ := List.getElem_of_mem hmem
    exact hno n (by omega) (by rw [List.getD_eq_getElem l 0 hn]; exact hnd)
  | succ fuel ih =>
    intro i hfuel hno
    simp only [erase_loop]
    split_ifs with hi hd
    · have hsplit : l = l.take i ++ l.getD i 0 :: l.drop (i + 1) := by
        rw [List.getD_eq_getElem l 0 hi]
        simp
      have hnot : d ∉ l.take i := by
        intro hmem
        obtain ⟨j, hj, _, hjd⟩ := mem_take_getD hmem
        exact hno j hj hjd.symm
      rw [List.eraseIdx_eq_take_drop_succ]
      conv_rhs => rw [hsplit]
      rw [List.erase_append_right _ hnot, hd]
      simp
    · refine ih (i + 1) (by omega) ?_
      intro j hj
      rcases Nat.lt_succ_iff_lt_or_eq.mp hj with hj | rfl
      · exact hno j hj
      · exact hd
    · refine (List.erase_of_not_mem ?_).symm
      intro hmem
      obtain ⟨n, hn, hnd⟩ := List.getElem_of_mem hmem
      exact hno n (by omega) (by rw [List.getD_eq_getElem l 0 hn]; exact hnd)

theorem remove_one_eq_erase (l : List Nat) (d : Nat) : remove_one l d = l.erase d :=
  erase_loop_eq l d l.length 0 (by omega) (fun j hj => absurd hj (Nat.not_lt_zero j))

theorem sorted_remove_one {l : List Nat} (hs : l.Sorted (· ≤ ·)) (d : Nat) :
    (remove_one l d).Sorted (· ≤ ·) := by
  rw [remove_one_eq_erase]
  exact List.Pairwise.sublist (List.erase_sublist d l) hs

theorem sorted_drain (completed : List Nat) :
    ∀ {l : List Nat}, l.Sorted (· ≤ ·) → (drain l completed).Sorted (· ≤ ·) := by
  induction completed with
  | nil => intro l hs; exact hs
  | cons d ds ih =>
    intro l hs
    exact ih (sorted_remove_one hs d)


/-! ## Machine words -/

theorem toInt32_of_lt {x : Nat} (h : x < 2 ^ 31) : toInt32 x = (x : Int) := by
  unfold toInt32
  have hx : x % 2 ^ 32 = x := Nat.mod_eq_of_lt (by omega)
  rw [hx, if_pos h]

theorem sub64_le_sub {a b : Nat} (h : b ≤ a) : sub64 a b ≤ a - b := by
  unfold sub64
  omega

/-! ## One event of the fetch loop -/

theorem handle_event_some {s s1 : Sink} {e : Fetched} (h : handle_event s e = some s1) :
    s1.d_time = s.d_time ∧ s1.d_history = s.d_history ∧
    s1.d_buffer_window_size = s.d_buffer_window_size ∧
    s1.d_search_behavior = s.d_search_behavior ∧
    s1.d_congestion_behavior = s.d_congestion_behavior ∧
    s1.live_event_times = live_insert s.d_search_behavior s.live_event_times e.etime := by
  unfold handle_event at h
  simp only at h
  generalize (if e.push = true then some (s.d_nevents + 1)
    else congestion_switch s.d_congestion_behavior e.retries (s.d_nevents + 1)) = ap at h
  cases ap with
  | none => exact absurd h (by simp)
  | some n =>
    simp only [Option.some.injEq] at h
    subst h
    exact ⟨rfl, rfl, rfl, rfl, rfl, rfl⟩

theorem block_retry_false_isSome (retries : List Bool) :
    (block_retry false retries).isSome ↔ true ∈ retries := by
  induction retries with
  | nil => simp [block_retry]
  | cons r rs ih =>
    cases r with
    | true => simp [block_retry]
    | false => simpa [block_retry] using ih

theorem handle_event_isSome (s : Sink) (e : Fetched) :
    (handle_event s e).isSome ↔
      (s.d_congestion_behavior = .BLOCK → e.push = true ∨ true ∈ e.retries) := by
  have hb := block_retry_false_isSome e.retries
  unfold handle_event
  cases hp : e.push with
  | true => simp
  | false =>
    cases hc : s.d_congestion_behavior with
    | BLOCK =>
      cases hr : block_retry false e.retries with
      | none =>
        rw [hr] at hb
        simp [congestion_switch, hr] at hb ⊢
        exact hb
      | some b =>
        rw [hr] at hb
        simp [congestion_switch, hr] at hb ⊢
        exact hb
    | DROP => simp [congestion_switch]
    | unnamed v => simp [congestion_switch]

theorem fetch_loop_some (es : List Fetched) :
    ∀ {s s2 : Sink}, fetch_loop es s = some s2 →
      s2.d_time = s.d_time ∧ s2.d_history = s.d_history ∧
      s2.d_buffer_window_size = s.d_buffer_window_size ∧
      s2.d_search_behavior = s.d_search_behavior ∧
      s2.d_congestion_behavior = s.d_congestion_behavior ∧
      (s.live_event_times.Sorted (· ≤ ·) → s2.live_event_times.Sorted (· ≤ ·)) := by
  induction es with
  | nil =>
    intro s s2 h
    simp only [fetch_loop, Option.some.injEq] at h
    subst h
    exact ⟨rfl, rfl, rfl, rfl, rfl, id⟩
  | cons e es ih =>
    intro s s2 h
    simp only [fetch_loop] at h
    cases h1 : handle_event s e with
    | none => rw [h1] at h; exact absurd h (by simp)
    | some s1 =>
      rw [h1] at h
      obtain ⟨a1, a2, a3, a4, a5, a6⟩ := handle_event_some h1
      obtain ⟨b1, b2, b3, b4, b5, b6⟩ := ih h
      refine ⟨b1.trans a1, b2.trans a2, b3.trans a3, b4.trans a4, b5.trans a5, ?_⟩
      intro hs
      apply b6
      rw [a6]
      exact sorted_live_insert _ hs _

theorem fetch_loop_isSome (es : List Fetched) :
    ∀ s : Sink, (fetch_loop es s).isSome ↔ retries_end s.d_congestion_behavior es := by
  induction es with
  | nil => intro s; simp [fetch_loop, retries_end]
  | cons e es ih =>
    intro s
    have he := handle_event_isSome s e
    simp only [fetch_loop]
    cases h1 : handle_event s e with
    | none =>
      rw [h1] at he
      simp only [Option.isSome_none, Bool.false_eq_true, false_iff] at he ⊢
      intro hall
      apply he
      intro hb
      exact hall hb e (List.mem_cons_self e es)
    | some s1 =>
      rw [h1] at he
      simp only [Option.isSome_some, true_iff] at he
      have hcb := (handle_event_some h1).2.2.2.2.1
      rw [ih s1, hcb]
      unfold retries_end
      constructor
      · intro hall hb x hx
        rcases List.mem_cons.mp hx with rfl | hx
        · exact he hb
        · exact hall hb x hx
      · intro hall hb x hx
        exact hall hb x (List.mem_cons_of_mem e hx)

/-! ## One cycle of `work` -/

theorem work_some {s s1 : Sink} {c : Cycle} {n : Int} (h : work s c = some (s1, n)) :
    n = nconsume c.noutput_items (min_time s.d_time s.d_history) s1.live_event_times
          c.store_empty c.store_min_time ∧
    s1.d_time = s.d_time + n.toNat ∧ s1.d_history = s.d_history ∧
    s1.d_buffer_window_size = buffer_window_size s.d_time s.d_history c.noutput_items ∧
    (s.live_event_times.Sorted (· ≤ ·) → s1.live_event_times.Sorted (· ≤ ·)) := by
  unfold work at h
  simp only at h
  split at h
  · exact absurd h (by simp)
  · rename_i s2 hf
    simp only [Option.some.injEq, Prod.mk.injEq] at h
    obtain ⟨hs1, hn⟩ := h
    obtain ⟨b1, b2, b3, b4, b5, b6⟩ := fetch_loop_some _ hf
    subst hs1
    refine ⟨hn.symm, ?_, b2, b3, ?_⟩
    · simp only [b1, hn]
    · intro hs
      exact b6 (sorted_drain c.completed hs)

theorem work_isSome (s : Sink) (c : Cycle) :
    (work s c).isSome ↔ retries_end s.d_congestion_behavior c.fetched := by
  unfold work
  simp only
  rw [← fetch_loop_isSome c.fetched
    { s with
      d_buffer_window_size := sub64 (max_time s.d_time c.noutput_items)
        (min_time s.d_time s.d_history)
      live_event_times := drain s.live_event_times c.completed }]
  split <;> simp_all

theorem nconsume_bounds {n : Nat} (hn : n < 2 ^ 31) (min_t : Nat) (live : List Nat)
    (store_empty : Bool) (store_min_time : Nat) :
    0 ≤ nconsume n min_t live store_empty store_min_time ∧
    nconsume n min_t live store_empty store_min_time ≤ (n : Int) := by
  unfold nconsume
  rw [toInt32_of_lt (lt_of_le_of_lt (Nat.min_le_left _ _) hn)]
  exact ⟨Int.natCast_nonneg _, Int.ofNat_le.mpr (Nat.min_le_left _ _)⟩


theorem getElem?_eq_some_iff_getD (l : List Nat) (j x : Nat) :
    l[j]? = some x ↔ j < l.length ∧ l.getD j 0 = x := by
  constructor
  · intro h
    obtain ⟨hj, hx⟩ := List.getElem?_eq_some.mp h
    exact ⟨hj, by rw [List.getD_eq_getElem l 0 hj]; exact hx⟩
  · rintro ⟨hj, hx⟩
    rw [List.getD_eq_getElem l 0 hj] at hx
    exact List.getElem?_eq_some.mpr ⟨hj, hx⟩

theorem live_insert_perm (sb : es_search_behaviors) (l : List Nat) (t : Nat) :
    (live_insert sb l t).Perm (t :: l) := by
  unfold live_insert vector_insert
  have h := @List.perm_middle Nat t (l.take (find_index sb l t)) (l.drop (find_index sb l t))
  rwa [List.take_append_drop] at h

/-! ## Claims -/

/-- C1: the Live Event Index stays sorted ascending under every operation that
mutates it.  For every sorted-ascending `live_event_times` and every
timestamp `t`, under each search behaviour (forward, reverse, binary, and
any other value, which falls to the default) `find_index` returns a position
inside the vector and inserting `t` there yields a sorted-ascending list
that holds `t` and the old entries; erasing the first entry equal to a
completed timestamp `d` (one step of the completion drain), the whole drain,
and a whole cycle of `work` also yield a sorted-ascending list. -/
theorem live_event_index_stays_sorted (l : List Nat) (hs : l.Sorted (· ≤ ·)) (t d : Nat) :
    (∀ sb : es_search_behaviors,
      find_index sb l t ≤ l.length ∧ (live_insert sb l t).Perm (t :: l) ∧
      (live_insert sb l t).Sorted (· ≤ ·)) ∧
    (remove_one l d = l.erase d ∧ (remove_one l d).Sorted (· ≤ ·)) ∧
    (∀ completed : List Nat, (drain l completed).Sorted (· ≤ ·)) ∧
    (∀ (s : Sink) (c : Cycle) (s1 : Sink) (n : Int), s.live_event_times = l →
      work s c = some (s1, n) → s1.live_event_times.Sorted (· ≤ ·)) := by
  refine ⟨fun sb => ⟨find_index_le_length sb hs t, live_insert_perm sb l t,
    sorted_live_insert sb hs t⟩, ⟨remove_one_eq_erase l d, sorted_remove_one hs d⟩,
    fun completed => sorted_drain completed hs, ?_⟩
  intro s c s1 n hl hw
  exact (work_some hw).2.2.2.2 (hl ▸ hs)

theorem live_event_index_stays_sorted_witness :
    ([1, 3, 3, 5] : List Nat).Sorted (· ≤ ·) ∧
    (live_insert .SEARCH_REVERSE [1, 3, 3, 5] 3).Sorted (· ≤ ·) ∧
    (remove_one [1, 3, 3, 5] 3).Sorted (· ≤ ·) :=
  ⟨by decide,
   ((live_event_index_stays_sorted [1, 3, 3, 5] (by decide) 3 3).1 .SEARCH_REVERSE).2.2,
   (live_event_index_stays_sorted [1, 3, 3, 5] (by decide) 3 3).2.1.2⟩

/-- C2: for every state and every number `noutput_items` of available samples
(a non-negative `int`, so below 2^31), a cycle of `work` returns exactly when
its retry loops exit, and the count it returns satisfies
`0 ≤ count ≤ noutput_items`; the head `d_time` after the cycle is the head
before it plus that count, so the head does not decrease. -/
theorem work_count_bounds (s : Sink) (c : Cycle) (hn : c.noutput_items < 2 ^ 31) :
    ((work s c).isSome ↔ retries_end s.d_congestion_behavior c.fetched) ∧
    ∀ (s1 : Sink) (n : Int), work s c = some (s1, n) →
      0 ≤ n ∧ n ≤ (c.noutput_items : Int) ∧
      (s1.d_time : Int) = (s.d_time : Int) + n ∧ s.d_time ≤ s1.d_time := by
  refine ⟨work_isSome s c, ?_⟩
  intro s1 n hw
  obtain ⟨h1, h2, -⟩ := work_some hw
  obtain ⟨b1, b2⟩ := nconsume_bounds hn (min_time s.d_time s.d_history) s1.live_event_times
    c.store_empty c.store_min_time
  rw [← h1] at b1 b2
  refine ⟨b1, b2, ?_, ?_⟩
  · rw [h2]
    push_cast
    rw [Int.toNat_of_nonneg b1]
  · omega

theorem work_count_bounds_witness :
    (100 : Nat) < 2 ^ 31 ∧ (0 ≤ (23 : Int) ∧ (23 : Int) ≤ ((100 : Nat) : Int) ∧
      ((2023 : Nat) : Int) = ((2000 : Nat) : Int) + 23 ∧ 2000 ≤ 2023) :=
  ⟨by decide,
   (work_count_bounds ⟨2000, 1024, 0, 0, [1000], .SEARCH_FORWARD, .DROP⟩
      ⟨100, [], [], true, 0⟩ (by decide)).2
      ⟨2023, 1024, 0, 1123, [1000], .SEARCH_FORWARD, .DROP⟩ 23 (by decide)⟩

/-- C3, as stated, fails: with head 2000, history 1024, one live event at
1000 and 100 available samples, the window starts at 977, `work` returns 23
and the head after the cycle is 2023, which is past the live entry 1000. -/
theorem head_passes_earliest_live_event :
    work ⟨2000, 1024, 0, 0, [1000], .SEARCH_FORWARD, .DROP⟩ ⟨100, [], [], true, 0⟩
      = some (⟨2023, 1024, 0, 1123, [1000], .SEARCH_FORWARD, .DROP⟩, 23) ∧
    ¬ ((2023 : Nat) ≤ 1000) := by
  decide

/-- C3, amended: for every cycle of `work`, the start of the window advanced
by the returned count, `min_time + nconsume`, is never past the earliest
Live Event Index entry when the index is non-empty and that entry is not
before `min_time`, and never past the store's next-pending time when the
store is non-empty and that time is not before `min_time`.  The head after
the cycle is then at most `d_history - 1` past that entry or time. -/
theorem window_start_not_past_pending (s : Sink) (c : Cycle)
    (hn : c.noutput_items < 2 ^ 31) :
    ((work s c).isSome ↔ retries_end s.d_congestion_behavior c.fetched) ∧
    ∀ (s1 : Sink) (n : Int), work s c = some (s1, n) →
      (∀ (t0 : Nat) (rest : List Nat), s1.live_event_times = t0 :: rest →
        min_time s.d_time s.d_history ≤ t0 →
        (min_time s.d_time s.d_history : Int) + n ≤ (t0 : Int) ∧
        (s1.d_time : Int) + 1 ≤ (t0 : Int) + (s.d_history : Int)) ∧
      (c.store_empty = false → min_time s.d_time s.d_history ≤ c.store_min_time →
        (min_time s.d_time s.d_history : Int) + n ≤ (c.store_min_time : Int) ∧
        (s1.d_time : Int) + 1 ≤ (c.store_min_time : Int) + (s.d_history : Int)) := by
  refine ⟨work_isSome s c, ?_⟩
  intro s1 n hw
  obtain ⟨h1, h2, -⟩ := work_some hw
  obtain ⟨b1, -⟩ := nconsume_bounds hn (min_time s.d_time s.d_history) s1.live_event_times
    c.store_empty c.store_min_time
  rw [← h1] at b1
  have hcast : n = ((min c.noutput_items
      (min (match s1.live_event_times with
            | [] => c.noutput_items
            | t0 :: _ => sub64 t0 (min_time s.d_time s.d_history))
           (if c.store_empty then c.noutput_items
            else sub64 c.store_min_time (min_time s.d_time s.d_history))) : Nat) : Int) := by
    rw [h1]
    unfold nconsume
    exact toInt32_of_lt (lt_of_le_of_lt (Nat.min_le_left _ _) hn)
  have hd : (s1.d_time : Int) = (s.d_time : Int) + n := by
    rw [h2]; push_cast; rw [Int.toNat_of_nonneg b1]
  have hmin : (min_time s.d_time s.d_history : Int) + (s.d_history : Int) ≥ (s.d_time : Int) + 1 := by
    unfold min_time
    split_ifs <;> omega
  constructor
  · intro t0 rest hl hle
    rw [hl] at hcast
    have hb := sub64_le_sub hle
    have hle2 : n ≤ ((sub64 t0 (min_time s.d_time s.d_history) : Nat) : Int) := by
      rw [hcast]
      exact Int.ofNat_le.mpr (le_trans (Nat.min_le_right _ _) (Nat.min_le_left _ _))
    omega
  · intro he hle
    rw [he] at hcast
    have hb := sub64_le_sub hle
    have hle2 : n ≤ ((sub64 c.store_min_time (min_time s.d_time s.d_history) : Nat) : Int) := by
      rw [hcast]
      exact Int.ofNat_le.mpr (le_trans (Nat.min_le_right _ _) (by simp))
    omega

theorem window_start_not_past_pending_witness :
    (100 : Nat) < 2 ^ 31 ∧
    ((min_time 2000 1024 : Int) + 23 ≤ ((1000 : Nat) : Int) ∧
      ((2023 : Nat) : Int) + 1 ≤ ((1000 : Nat) : Int) + ((1024 : Nat) : Int)) :=
  ⟨by decide,
   ((window_start_not_past_pending ⟨2000, 1024, 0, 0, [1000], .SEARCH_FORWARD, .DROP⟩
      ⟨100, [], [], true, 0⟩ (by decide)).2
      ⟨2023, 1024, 0, 1123, [1000], .SEARCH_FORWARD, .DROP⟩ 23 (by decide)).1
      1000 [] rfl (by decide)⟩


/-- C4: for every head `d_time`, history depth `d_history` and number of
available samples, the interval computed by `work` is
`min_time = max(0, d_time - d_history + 1)`, taken over the integers, and
`max_time = d_time + noutput_items`; history 1024, head 500, available 100
gives min 0 and max 600, and history 1024, head 2000, available 100 gives
min 977 and max 2100. -/
theorem window_interval (d_time d_history noutput_items : Nat) :
    ((min_time d_time d_history : Nat) : Int)
      = max 0 ((d_time : Int) - (d_history : Int) + 1) ∧
    max_time d_time noutput_items = d_time + noutput_items ∧
    (min_time 500 1024 = 0 ∧ max_time 500 100 = 600) ∧
    (min_time 2000 1024 = 977 ∧ max_time 2000 100 = 2100) := by
  refine ⟨?_, rfl, ⟨by decide, by decide⟩, ⟨by decide, by decide⟩⟩
  unfold min_time
  split_ifs with h
  · rw [max_eq_left (by omega)]
    rfl
  · rw [max_eq_right (by omega)]
    omega

/-- C5, as stated, fails: with head 2000 at or above the history depth 1024
and 100 available samples, the width `max_time - min_time` that `work`
stores is 2100 - 977 = 1123, not the history depth 1024. -/
theorem stored_width_exceeds_history :
    (1024 : Nat) ≤ 2000 ∧ buffer_window_size 2000 1024 100 = 1123 ∧
    buffer_window_size 2000 1024 100 ≠ 1024 ∧
    (work ⟨2000, 1024, 0, 0, [], .SEARCH_FORWARD, .DROP⟩ ⟨100, [], [], true, 0⟩).map
      (fun r => r.1.d_buffer_window_size) = some 1123 := by
  decide

/-- C5, amended: for every head, history depth and number of available
samples with head at or above the history depth (and history plus available
between 1 and 2^64, so that the width fits its 64-bit word), the width
`max_time - min_time` computed by `work` and stored as the buffer window
size equals the history depth minus one plus the number of available
samples; it is the history depth exactly when one sample is available. -/
theorem window_width_formula (s : Sink) (c : Cycle) (hh : s.d_history ≤ s.d_time)
    (h1 : 1 ≤ s.d_history + c.noutput_items) (h2 : s.d_history + c.noutput_items ≤ 2 ^ 64) :
    max_time s.d_time c.noutput_items - min_time s.d_time s.d_history
      = s.d_history + c.noutput_items - 1 ∧
    buffer_window_size s.d_time s.d_history c.noutput_items
      = s.d_history + c.noutput_items - 1 ∧
    (c.noutput_items = 1 →
      buffer_window_size s.d_time s.d_history c.noutput_items = s.d_history) ∧
    ∀ (s1 : Sink) (n : Int), work s c = some (s1, n) →
      s1.d_buffer_window_size = s.d_history + c.noutput_items - 1 := by
  have hw : buffer_window_size s.d_time s.d_history c.noutput_items
      = s.d_history + c.noutput_items - 1 := by
    unfold buffer_window_size sub64 max_time min_time
    rw [if_neg (by omega)]
    omega
  refine ⟨?_, hw, fun h => by rw [hw]; omega, fun s1 n hwork => ?_⟩
  · unfold max_time min_time
    rw [if_neg (by omega)]
    omega
  · rw [(work_some hwork).2.2.2.1, hw]

theorem window_width_formula_witness :
    ((1024 : Nat) ≤ 2000 ∧ 1 ≤ 1024 + 100 ∧ 1024 + 100 ≤ 2 ^ 64) ∧
    buffer_window_size 2000 1024 100 = 1024 + 100 - 1 :=
  ⟨⟨by decide, by decide, by decide⟩,
   (window_width_formula ⟨2000, 1024, 0, 0, [], .SEARCH_FORWARD, .DROP⟩ ⟨100, [], [], true, 0⟩
      (by decide) (by decide) (by decide)).2.1⟩

/-- C6, as stated, fails: with history depth 0 and no available sample, at
head 5, `work` computes `min_time = 6` and `max_time = 5`. -/
theorem window_min_above_max :
    min_time 5 0 = 6 ∧ max_time 5 0 = 5 ∧ ¬ (min_time 5 0 ≤ max_time 5 0) := by
  decide

/-- C6, amended: for all values of head, history depth and number of
available samples, the interval computed by `work` satisfies
`min_time ≤ max_time` exactly when the history depth is at least 1 or at
least one sample is available. -/
theorem window_min_le_max (d_time d_history noutput_items : Nat) :
    min_time d_time d_history ≤ max_time d_time noutput_items ↔
      (1 ≤ d_history ∨ 1 ≤ noutput_items) := by
  unfold min_time max_time
  split_ifs <;> omega

/-- C7, on the code: under DROP, with an empty Live Event Index, a fetched
event at time 1000 whose push onto the dispatch queue fails is counted up
and down again, and its time is still inserted: the index after handling
the event is `[1000]`, not the empty index it was before. -/
theorem dropped_event_enters_live_index :
    handle_event ⟨2000, 1024, 0, 0, [], .SEARCH_FORWARD, .DROP⟩ ⟨1000, 10, false, []⟩
      = some ⟨2000, 1024, 0, 0, [1000], .SEARCH_FORWARD, .DROP⟩ ∧
    ([1000] : List Nat) ≠ [] := by
  decide

/-- C8: under the Drop congestion policy, for every fetched event whose push
onto the dispatch queue fails, handling the event returns and the
total-created counter `d_nevents` after it equals its value before the
event was fetched. -/
theorem drop_restores_total_created (s : Sink) (e : Fetched)
    (hd : s.d_congestion_behavior = .DROP) (hp : e.push = false) :
    ∃ s1 : Sink, handle_event s e = some s1 ∧ s1.d_nevents = s.d_nevents := by
  unfold handle_event
  simp [hp, hd, congestion_switch]

theorem drop_restores_total_created_witness :
    ∃ s1 : Sink,
      handle_event ⟨2000, 1024, 7, 0, [], .SEARCH_FORWARD, .DROP⟩ ⟨1000, 10, false, []⟩
        = some s1 ∧ s1.d_nevents = 7 :=
  drop_restores_total_created ⟨2000, 1024, 7, 0, [], .SEARCH_FORWARD, .DROP⟩
    ⟨1000, 10, false, []⟩ rfl rfl

/-- C9: for every sorted-ascending `live_event_times` that already holds an
entry equal to `T`, `find_forward` and `find_binary` return the index of the
first entry equal to `T` (the entry at that index is `T` and no entry before
it is), so the new entry goes before all equal entries, and `find_reverse`
returns one past the index of the last entry equal to `T` (the entry just
before that index is `T` and no entry from it on is), so the new entry goes
after all equal entries. -/
theorem equal_entry_tie_break (l : List Nat) (T : Nat) (hs : l.Sorted (· ≤ ·))
    (hT : T ∈ l) :
    (l[find_forward l T]? = some T ∧ ∀ j, j < find_forward l T → l[j]? ≠ some T) ∧
    (l[find_binary l T]? = some T ∧ ∀ j, j < find_binary l T → l[j]? ≠ some T) ∧
    (0 < find_reverse l T ∧ l[find_reverse l T - 1]? = some T ∧
      ∀ j, find_reverse l T ≤ j → l[j]? ≠ some T) := by
  obtain ⟨i, hi, hiT⟩ := List.getElem_of_mem hT
  have hiD : l.getD i 0 = T := by rw [List.getD_eq_getElem l 0 hi]; exact hiT
  obtain ⟨f1, f2, f3⟩ := find_forward_spec l T
  obtain ⟨r1, r2, r3⟩ := find_reverse_spec l T
  have hfwd : l[find_forward l T]? = some T ∧ ∀ j, j < find_forward l T → l[j]? ≠ some T := by
    have hfi : find_forward l T ≤ i := by
      by_contra hcon
      have := f2 i (by omega)
      omega
    have hfl : find_forward l T < l.length := by omega
    have hge := f3 hfl
    have hle := getD_le_of_sorted hs hfi hi
    refine ⟨(getElem?_eq_some_iff_getD l _ T).mpr ⟨hfl, by omega⟩, ?_⟩
    intro j hj hjT
    have := ((getElem?_eq_some_iff_getD l j T).mp hjT).2
    have := f2 j hj
    omega
  refine ⟨hfwd, ?_, ?_⟩
  · rw [find_binary_eq_find_forward hs T]
    exact hfwd
  · have hir : i < find_reverse l T := by
      by_contra hcon
      have := r2 i (by omega) hi
      omega
    have hpos : 0 < find_reverse l T := by omega
    have hle := r3 hpos
    have hge := getD_le_of_sorted hs (show i ≤ find_reverse l T - 1 by omega)
      (show find_reverse l T - 1 < l.length by omega)
    refine ⟨hpos, (getElem?_eq_some_iff_getD l _ T).mpr ⟨by omega, by omega⟩, ?_⟩
    intro j hj hjT
    obtain ⟨hjl, hjv⟩ := (getElem?_eq_some_iff_getD l j T).mp hjT
    have := r2 j hj hjl
    omega

theorem equal_entry_tie_break_witness :
    (([1, 3, 3, 5] : List Nat).Sorted (· ≤ ·) ∧ 3 ∈ ([1, 3, 3, 5] : List Nat)) ∧
    find_forward [1, 3, 3, 5] 3 = 1 ∧ find_binary [1, 3, 3, 5] 3 = 1 ∧
    find_reverse [1, 3, 3, 5] 3 = 3 ∧
    ([1, 3, 3, 5] : List Nat)[find_forward [1, 3, 3, 5] 3]? = some 3 :=
  ⟨⟨by decide, by decide⟩, by decide, by decide, by decide,
   (equal_entry_tie_break [1, 3, 3, 5] 3 (by decide) (by decide)).1.1⟩

/-- C10: for every sorted-ascending `live_event_times` and every timestamp
`t`, `find_binary` returns the same index as `find_forward`, and that index
is the index of the first entry at or above `t`: it is at most the length,
every entry before it is below `t`, and the entry at it, when there is one,
is at or above `t` (so it is the length when no entry is at or above `t`). -/
theorem binary_search_agrees_with_forward (l : List Nat) (t : Nat)
    (hs : l.Sorted (· ≤ ·)) :
    find_binary l t = find_forward l t ∧
    find_forward l t ≤ l.length ∧
    (∀ j, j < find_forward l t → ∃ x, l[j]? = some x ∧ x < t) ∧
    (∀ x, l[find_forward l t]? = some x → t ≤ x) ∧
    ((∀ x ∈ l, x < t) → find_forward l t = l.length) := by
  obtain ⟨f1, f2, f3⟩ := find_forward_spec l t
  refine ⟨find_binary_eq_find_forward hs t, f1, ?_, ?_, ?_⟩
  · intro j hj
    exact ⟨l.getD j 0, (getElem?_eq_some_iff_getD l j _).mpr ⟨by omega, rfl⟩, f2 j hj⟩
  · intro x hx
    obtain ⟨hl, hv⟩ := (getElem?_eq_some_iff_getD l _ x).mp hx
    have := f3 hl
    omega
  · intro hall
    by_contra hne
    have hl : find_forward l t < l.length := by omega
    have hge := f3 hl
    have hmem : l.getD (find_forward l t) 0 ∈ l := by
      rw [List.getD_eq_getElem l 0 hl]
      exact List.getElem_mem hl
    have := hall _ hmem
    omega

theorem binary_search_agrees_with_forward_witness :
    ([1, 3, 3, 5] : List Nat).Sorted (· ≤ ·) ∧
    find_binary [1, 3, 3, 5] 4 = find_forward [1, 3, 3, 5] 4 ∧
    find_forward [1, 3, 3, 5] 4 = 3 :=
  ⟨by decide, (binary_search_agrees_with_forward [1, 3, 3, 5] 4 (by decide)).1, by decide⟩


/-! ## The window over two cycles, and the slice of an event -/

theorem work_count_le_distance {s s1 : Sink} {c : Cycle} {n : Int}
    (hn : c.noutput_items < 2 ^ 31) (hw : work s c = some (s1, n)) :
    0 ≤ n ∧ (s1.d_time : Int) = (s.d_time : Int) + n ∧ s1.d_history = s.d_history ∧
    (∀ (t0 : Nat) (rest : List Nat), s1.live_event_times = t0 :: rest →
      min_time s.d_time s.d_history ≤ t0 →
      (min_time s.d_time s.d_history : Int) + n ≤ (t0 : Int)) ∧
    (c.store_empty = false → min_time s.d_time s.d_history ≤ c.store_min_time →
      (min_time s.d_time s.d_history : Int) + n ≤ (c.store_min_time : Int)) := by
  obtain ⟨h1, h2, h3, -⟩ := work_some hw
  obtain ⟨b1, -⟩ := nconsume_bounds hn (min_time s.d_time s.d_history) s1.live_event_times
    c.store_empty c.store_min_time
  rw [← h1] at b1
  have hcast : n = ((min c.noutput_items
      (min (match s1.live_event_times with
            | [] => c.noutput_items
            | t0 :: _ => sub64 t0 (min_time s.d_time s.d_history))
           (if c.store_empty then c.noutput_items
            else sub64 c.store_min_time (min_time s.d_time s.d_history))) : Nat) : Int) := by
    rw [h1]
    unfold nconsume
    exact toInt32_of_lt (lt_of_le_of_lt (Nat.min_le_left _ _) hn)
  have hd : (s1.d_time : Int) = (s.d_time : Int) + n := by
    rw [h2]; push_cast; rw [Int.toNat_of_nonneg b1]
  refine ⟨b1, hd, h3, ?_, ?_⟩
  · intro t0 rest hl hle
    rw [hl] at hcast
    have hb := sub64_le_sub hle
    have hle2 : n ≤ ((sub64 t0 (min_time s.d_time s.d_history) : Nat) : Int) := by
      rw [hcast]
      exact Int.ofNat_le.mpr (le_trans (Nat.min_le_right _ _) (Nat.min_le_left _ _))
    omega
  · intro he hle
    rw [he] at hcast
    have hb := sub64_le_sub hle
    have hle2 : n ≤ ((sub64 c.store_min_time (min_time s.d_time s.d_history) : Nat) : Int) := by
      rw [hcast]
      exact Int.ofNat_le.mpr (le_trans (Nat.min_le_right _ _) (by simp))
    omega

theorem next_min_time_le {d_time d_history d_time1 t : Nat} {n : Int}
    (hd : (d_time1 : Int) = (d_time : Int) + n)
    (ht : (min_time d_time d_history : Int) + n ≤ (t : Int)) :
    min_time d_time1 d_history ≤ t := by
  unfold min_time at ht ⊢
  split_ifs at ht ⊢ <;> omega

theorem buffer_offset_value {etime length d_time d_history noutput_items : Nat}
    (hlo : min_time d_time d_history ≤ etime)
    (hhi : etime + length ≤ max_time d_time noutput_items)
    (hr : d_history + noutput_items < 2 ^ 31) :
    toInt32 (sub64 (sub64 etime d_time + d_history) 1)
      = (etime : Int) - (d_time : Int) + (d_history : Int) - 1 ∧
    0 ≤ (etime : Int) - (d_time : Int) + (d_history : Int) - 1 ∧
    (etime : Int) - (d_time : Int) + (d_history : Int) - 1 + (length : Int)
      ≤ (d_history : Int) - 1 + (noutput_items : Int) := by
  unfold min_time at hlo
  unfold max_time at hhi
  have hv : sub64 (sub64 etime d_time + d_history) 1 < 2 ^ 31 ∧
      ((sub64 (sub64 etime d_time + d_history) 1 : Nat) : Int)
        = (etime : Int) - (d_time : Int) + (d_history : Int) - 1 := by
    unfold sub64
    split_ifs at hlo <;> omega
  rw [toInt32_of_lt hv.1, hv.2]
  split_ifs at hlo <;> omega

/-- C11: the window never slides past data a pending event still needs.  For
every cycle of `work` (with `noutput_items` in the range of a non-negative
`int`): if every Live Event Index entry after the fetch loop, those inserted
this cycle included, is at or above this cycle's `min_time`, and the store's
next-pending time, when the store is non-empty, is at or above `min_time`,
then after `d_time += nconsume` the next cycle's `min_time`, which is
`max(0, d_time - d_history + 1)` over the integers at the new head, is at or
below the first entry `live_event_times[0]` (at or below every entry when the
index was sorted before the cycle) and at or below the store's next-pending
time.  The bound `d_history ≥ 1` of the claim is not needed. -/
theorem window_keeps_pending_data (s : Sink) (c : Cycle)
    (hn : c.noutput_items < 2 ^ 31) :
    ((work s c).isSome ↔ retries_end s.d_congestion_behavior c.fetched) ∧
    ∀ (s1 : Sink) (n : Int), work s c = some (s1, n) →
      (∀ t ∈ s1.live_event_times, min_time s.d_time s.d_history ≤ t) →
      (c.store_empty = false → min_time s.d_time s.d_history ≤ c.store_min_time) →
      ((min_time s1.d_time s1.d_history : Nat) : Int)
        = max 0 ((s.d_time : Int) + n - (s.d_history : Int) + 1) ∧
      (∀ (t0 : Nat) (rest : List Nat), s1.live_event_times = t0 :: rest →
        min_time s1.d_time s1.d_history ≤ t0) ∧
      (s.live_event_times.Sorted (· ≤ ·) →
        ∀ t ∈ s1.live_event_times, min_time s1.d_time s1.d_history ≤ t) ∧
      (c.store_empty = false → min_time s1.d_time s1.d_history ≤ c.store_min_time) := by
  refine ⟨work_isSome s c, ?_⟩
  intro s1 n hw hlive hstore
  obtain ⟨h0, hd, hh, hl, hq⟩ := work_count_le_distance hn hw
  have hfirst : ∀ (t0 : Nat) (rest : List Nat), s1.live_event_times = t0 :: rest →
      min_time s1.d_time s1.d_history ≤ t0 := by
    intro t0 rest hl0
    rw [hh]
    exact next_min_time_le hd (hl t0 rest hl0 (hlive t0 (by rw [hl0]; exact List.mem_cons_self t0 rest)))
  refine ⟨?_, hfirst, ?_, ?_⟩
  · rw [hh]
    unfold min_time
    split_ifs with hc
    · rw [max_eq_left (by omega)]
      rfl
    · rw [max_eq_right (by omega)]
      omega
  · intro hs t ht
    have hs1 := (work_some hw).2.2.2.2 hs
    cases hl0 : s1.live_event_times with
    | nil => rw [hl0] at ht; exact absurd ht (List.not_mem_nil t)
    | cons t0 rest =>
      rw [hl0] at ht hs1
      have h1 := hfirst t0 rest hl0
      rcases List.mem_cons.mp ht with rfl | hr
      · exact h1
      · exact le_trans h1 (List.rel_of_sorted_cons hs1 t hr)
  · intro he
    rw [hh]
    exact next_min_time_le hd (hq he (hstore he))

theorem window_keeps_pending_data_witness :
    (100 : Nat) < 2 ^ 31 ∧ min_time 2023 1024 ≤ 1000 :=
  ⟨by decide,
   ((window_keeps_pending_data ⟨2000, 1024, 0, 0, [1000], .SEARCH_FORWARD, .DROP⟩
      ⟨100, [], [], true, 0⟩ (by decide)).2
      ⟨2023, 1024, 0, 1123, [1000], .SEARCH_FORWARD, .DROP⟩ 23 (by decide)
      (by decide) (by decide)).2.1 1000 [] rfl⟩

/-- C12: for every event that the store yields in a cycle and whose span fits
inside the interval (`min_time ≤ etime` and `etime + length ≤ max_time`),
with history plus available samples below 2^31, the value
`(int)(etime - d_time + d_history - 1)` is `etime - d_time + d_history - 1`
over the integers and is not negative, so the branch that warns and clamps
to 0 is not taken and `buffer_offset` is that value; and
`buffer_offset + length ≤ d_history - 1 + noutput_items`, so the slice lies
inside the buffer of history and new samples.  The bound `d_history ≥ 1` of
the claim is not needed. -/
theorem event_slice_inside_buffer (s : Sink) (c : Cycle) (e : Fetched)
    (_he : e ∈ c.fetched)
    (hlo : min_time s.d_time s.d_history ≤ e.etime)
    (hhi : e.etime + e.length ≤ max_time s.d_time c.noutput_items)
    (hr : s.d_history + c.noutput_items < 2 ^ 31) :
    ¬ (toInt32 (sub64 (sub64 e.etime s.d_time + s.d_history) 1) < 0) ∧
    buffer_offset e.etime s.d_time s.d_history
      = (e.etime : Int) - (s.d_time : Int) + (s.d_history : Int) - 1 ∧
    0 ≤ buffer_offset e.etime s.d_time s.d_history ∧
    buffer_offset e.etime s.d_time s.d_history + (e.length : Int)
      ≤ (s.d_history : Int) - 1 + (c.noutput_items : Int) := by
  obtain ⟨h1, h2, h3⟩ := buffer_offset_value hlo hhi hr
  have hnn : ¬ (toInt32 (sub64 (sub64 e.etime s.d_time + s.d_history) 1) < 0) := by
    rw [h1]; omega
  have hb : buffer_offset e.etime s.d_time s.d_history
      = (e.etime : Int) - (s.d_time : Int) + (s.d_history : Int) - 1 := by
    unfold buffer_offset
    rw [if_neg hnn, h1]
  refine ⟨hnn, hb, ?_, ?_⟩
  · rw [hb]; exact h2
  · rw [hb]; exact h3

theorem event_slice_inside_buffer_witness :
    (min_time 2000 1024 ≤ 1000 ∧ 1000 + 10 ≤ max_time 2000 100 ∧
      (1024 : Nat) + 100 < 2 ^ 31) ∧
    buffer_offset 1000 2000 1024 = 23 ∧
    buffer_offset 1000 2000 1024 + ((10 : Nat) : Int)
      ≤ ((1024 : Nat) : Int) - 1 + ((100 : Nat) : Int) :=
  ⟨⟨by decide, by decide, by decide⟩, by decide,
   (event_slice_inside_buffer ⟨2000, 1024, 0, 0, [], .SEARCH_FORWARD, .DROP⟩
      ⟨100, [], [⟨1000, 10, true, []⟩], true, 0⟩ ⟨1000, 10, true, []⟩
      (by decide) (by decide) (by decide) (by decide)).2.2.2⟩

end EsSink
